import Mathlib

/-!
Verification of the text-normalization utilities of this repository
(`text_tools.py` and `vaani_text_cleaner.py`).

Strings are modelled as Lean `String`s (lists of Unicode code points);
the per-character operations of the Python code are modelled on
`List Char`.  Python `None` inputs (a non-`str` value) are modelled by
`Option String` where `none` stands for a missing / non-text value.

`re.sub` is only used in the source with four shapes of pattern:
a character class (punctuation removal), `X[^c]*c` bracket patterns,
`X.*?c` bracket patterns (where `.` does not match a newline), and
`\s+` / `--+` run collapsing.  Each shape is embedded as a direct
left-to-right scan with exactly the leftmost-match semantics of `re.sub`.
-/

/-- The set of characters matched by Python's `\s` regex class on `str`
patterns and stripped by `str.strip()`: ASCII whitespace, the file/group
separators, NEL, NBSP and the Unicode space characters. -/
def pyIsSpace (c : Char) : Bool :=
  c == ' ' || c == '\t' || c == '\n' || c.toNat == 11 || c.toNat == 12 ||
  c == '\r' || c.toNat == 28 || c.toNat == 29 || c.toNat == 30 ||
  c.toNat == 31 || c.toNat == 0x85 || c.toNat == 0xA0 ||
  c.toNat == 0x1680 || (0x2000 ≤ c.toNat && c.toNat ≤ 0x200A) ||
  c.toNat == 0x2028 || c.toNat == 0x2029 || c.toNat == 0x202F ||
  c.toNat == 0x205F || c.toNat == 0x3000

/-- Scan for `re.sub(r'\s+', ' ', ·)`.  The flag records whether the scan
stands inside a whitespace run whose single replacement space has already
been emitted. -/
def collapseAux : Bool → List Char → List Char
  | _, [] => []
  | inRun, c :: cs =>
    if pyIsSpace c then
      if inRun then collapseAux true cs else ' ' :: collapseAux true cs
    else c :: collapseAux false cs

/-- `re.sub(r'\s+', ' ', ·)` on the character list: every maximal run of
whitespace characters is replaced by a single ASCII space. -/
def collapseL (l : List Char) : List Char := collapseAux false l

/-- Left part of Python `str.strip()`: drop leading whitespace. -/
def lstripL (l : List Char) : List Char := l.dropWhile pyIsSpace

/-- Right part of Python `str.strip()`: drop trailing whitespace. -/
def rstripL : List Char → List Char
  | [] => []
  | c :: cs =>
    let r := rstripL cs
    if r.isEmpty then (if pyIsSpace c then [] else [c]) else c :: r

/-- Python `str.strip()` on the character list. -/
def stripL (l : List Char) : List Char := rstripL (lstripL l)

/-- `remove_extra_whitespace` from `text_tools.py`:
`re.sub(r'\s+', ' ', text)` followed by `text.strip()`. -/
def remove_extra_whitespace (s : String) : String :=
  String.mk (stripL (collapseL s.data))

/-- `headNotWs l` says the list is empty or starts with a non-whitespace
character. -/
def headNotWs : List Char → Bool
  | [] => true
  | c :: _ => !pyIsSpace c

/-- A character list is collapsed when each of its whitespace characters
is a single ASCII space not followed by further whitespace. -/
def isCollapsed : List Char → Bool
  | [] => true
  | c :: cs =>
    (if pyIsSpace c then c == ' ' && headNotWs cs else true) && isCollapsed cs

theorem headNotWs_collapseAux_true (l : List Char) :
    headNotWs (collapseAux true l) = true := by
  induction l with
  | nil => rfl
  | cons c cs ih =>
    by_cases h : pyIsSpace c = true
    · simpa [collapseAux, h] using ih
    · simp [collapseAux, h, headNotWs]

theorem isCollapsed_tail {c : Char} {cs : List Char}
    (h : isCollapsed (c :: cs) = true) : isCollapsed cs = true := by
  simp only [isCollapsed, Bool.and_eq_true] at h
  exact h.2

theorem isCollapsed_collapseAux (b : Bool) (l : List Char) :
    isCollapsed (collapseAux b l) = true := by
  induction l generalizing b with
  | nil => rfl
  | cons c cs ih =>
    by_cases h : pyIsSpace c = true
    · match b with
      | true => simpa [collapseAux, h] using ih true
      | false =>
        rw [collapseAux, if_pos h, if_neg (by simp)]
        simp [isCollapsed, headNotWs_collapseAux_true cs, ih true]
    · rw [collapseAux, if_neg h]
      simp [isCollapsed, h, ih false]

theorem isCollapsed_collapseL (l : List Char) : isCollapsed (collapseL l) = true :=
  isCollapsed_collapseAux false l

theorem collapseAux_true_of_headNotWs {l : List Char} (h : headNotWs l = true) :
    collapseAux true l = collapseAux false l := by
  match l with
  | [] => rfl
  | c :: cs =>
    simp only [headNotWs, Bool.not_eq_true'] at h
    simp [collapseAux, h]

theorem collapseL_of_isCollapsed {l : List Char} (h : isCollapsed l = true) :
    collapseL l = l := by
  unfold collapseL
  induction l with
  | nil => rfl
  | cons c cs ih =>
    by_cases hc : pyIsSpace c = true
    · simp only [isCollapsed, hc, if_pos, Bool.and_eq_true, beq_iff_eq] at h
      obtain ⟨⟨hc', hhead⟩, htail⟩ := h
      rw [collapseAux, if_pos hc, if_neg (by simp),
        collapseAux_true_of_headNotWs hhead, ih htail, hc']
    · simp only [isCollapsed, hc, if_neg, Bool.and_eq_true] at h
      rw [collapseAux, if_neg hc, ih (by simpa using h)]

theorem headNotWs_dropWhile (l : List Char) : headNotWs (l.dropWhile pyIsSpace) = true := by
  induction l with
  | nil => rfl
  | cons c cs ih =>
    by_cases h : pyIsSpace c = true
    · simpa [List.dropWhile_cons, h] using ih
    · simp [List.dropWhile_cons, h, headNotWs]

theorem isCollapsed_lstripL {l : List Char} (h : isCollapsed l = true) :
    isCollapsed (lstripL l) = true := by
  induction l with
  | nil => rfl
  | cons c cs ih =>
    by_cases hc : pyIsSpace c = true
    · simpa [lstripL, List.dropWhile_cons, hc] using ih (isCollapsed_tail h)
    · simpa [lstripL, List.dropWhile_cons, hc] using h

theorem rstripL_head {c : Char} {cs r : List Char}
    (h : rstripL (c :: cs) = r) (hne : r ≠ []) : ∃ t, r = c :: t := by
  rw [rstripL] at h
  by_cases he : (rstripL cs).isEmpty = true
  · rw [if_pos he] at h
    by_cases hc : pyIsSpace c = true
    · rw [if_pos hc] at h; exact absurd h.symm hne
    · rw [if_neg hc] at h; exact ⟨[], h.symm⟩
  · rw [if_neg he] at h; exact ⟨rstripL cs, h.symm⟩

theorem isCollapsed_rstripL {l : List Char} (h : isCollapsed l = true) :
    isCollapsed (rstripL l) = true := by
  induction l with
  | nil => rfl
  | cons c cs ih =>
    have htail := ih (isCollapsed_tail h)
    rw [rstripL]
    by_cases he : (rstripL cs).isEmpty = true
    · rw [if_pos he]
      by_cases hc : pyIsSpace c = true
      · simp [hc, isCollapsed]
      · simp [hc, isCollapsed]
    · rw [if_neg he]
      simp only [isCollapsed, Bool.and_eq_true]
      refine ⟨?_, htail⟩
      by_cases hc : pyIsSpace c = true
      · simp only [isCollapsed, hc, if_pos, Bool.and_eq_true, beq_iff_eq] at h
        obtain ⟨⟨hc', hhead⟩, _⟩ := h
        have hcs : cs ≠ [] := by
          intro hnil; rw [hnil] at he; exact he rfl
        match cs, hcs with
        | d :: ds, _ =>
          simp only [headNotWs, Bool.not_eq_true'] at hhead
          obtain ⟨t, ht⟩ := rstripL_head rfl (by simpa [List.isEmpty_iff] using he)
          rw [ht]
          simp [hc, hc', headNotWs, hhead]
      · simp [hc]

theorem lstripL_of_headNotWs {l : List Char} (h : headNotWs l = true) :
    lstripL l = l := by
  match l with
  | [] => rfl
  | c :: cs =>
    simp only [headNotWs, Bool.not_eq_true'] at h
    simp [lstripL, List.dropWhile_cons, h]

theorem headNotWs_lstripL (l : List Char) : headNotWs (lstripL l) = true :=
  headNotWs_dropWhile l

theorem headNotWs_rstripL {l : List Char} (h : headNotWs l = true) :
    headNotWs (rstripL l) = true := by
  match l with
  | [] => rfl
  | c :: cs =>
    by_cases he : rstripL (c :: cs) = []
    · rw [he]; rfl
    · obtain ⟨t, ht⟩ := rstripL_head rfl he
      rw [ht]
      simpa [headNotWs] using h

theorem rstripL_idem (l : List Char) : rstripL (rstripL l) = rstripL l := by
  induction l with
  | nil => rfl
  | cons c cs ih =>
    rw [rstripL]
    by_cases he : (rstripL cs).isEmpty = true
    · rw [if_pos he]
      by_cases hc : pyIsSpace c = true
      · rw [if_pos hc]; rfl
      · rw [if_neg hc]
        show rstripL [c] = [c]
        rw [rstripL]
        simp [rstripL, hc]
    · rw [if_neg he]
      rw [rstripL, ih, if_neg he]

theorem stripL_idem (l : List Char) : stripL (stripL l) = stripL l := by
  unfold stripL
  have h1 : headNotWs (rstripL (lstripL l)) = true :=
    headNotWs_rstripL (headNotWs_lstripL l)
  rw [lstripL_of_headNotWs h1, rstripL_idem]

theorem isCollapsed_stripL {l : List Char} (h : isCollapsed l = true) :
    isCollapsed (stripL l) = true :=
  isCollapsed_rstripL (isCollapsed_lstripL h)

theorem stripL_collapseL_fix (l : List Char) :
    stripL (collapseL (stripL (collapseL l))) = stripL (collapseL l) := by
  have h1 : isCollapsed (stripL (collapseL l)) = true :=
    isCollapsed_stripL (isCollapsed_collapseL l)
  rw [collapseL_of_isCollapsed h1, stripL_idem]

/-! ### Bracket and dash substitutions

`re.sub` finds leftmost non-overlapping matches.  For a pattern
`o[^t]*t` a match starts at an occurrence of `o` that has some later
occurrence of `t`, and runs to the first such `t`; if no `t` follows, no
match can start at or after that `o`, so the remaining characters are kept
verbatim.  The scan below implements exactly this with a buffer holding
the characters consumed since the pending opener (in reverse). -/

/-- `re.sub(r'o[^t]*t', '', ·)` as a single left-to-right scan.
`none`: outside a candidate match; `some buf`: an `o` was seen and `buf`
holds the consumed characters since (reversed), none of which is `t`. -/
def reSubClassAux (o t : Char) : Option (List Char) → List Char → List Char
  | none, [] => []
  | none, c :: cs =>
    if c = o then reSubClassAux o t (some [c]) cs
    else c :: reSubClassAux o t none cs
  | some buf, [] => buf.reverse
  | some buf, c :: cs =>
    if c = t then reSubClassAux o t none cs
    else reSubClassAux o t (some (c :: buf)) cs

/-- `re.sub(r'o[^t]*t', '', ·)` on a character list (used by
`clean_vaani_transcript` with `\{[^}]*\}` and `<[^>]*>`). -/
def reSubClassL (o t : Char) (l : List Char) : List Char :=
  reSubClassAux o t none l

/-- `re.sub(r'o.*?t', '', ·)` as a single left-to-right scan.  Python's
`.` does not match a newline, so a candidate match is abandoned (and its
characters kept verbatim) when a newline arrives before the closer: no
match can start inside the abandoned span, since any `t` reachable from
there lies beyond the newline. -/
def reSubDotAux (o t : Char) : Option (List Char) → List Char → List Char
  | none, [] => []
  | none, c :: cs =>
    if c = o then reSubDotAux o t (some [c]) cs
    else c :: reSubDotAux o t none cs
  | some buf, [] => buf.reverse
  | some buf, c :: cs =>
    if c = t then reSubDotAux o t none cs
    else if c = '\n' then buf.reverse ++ '\n' :: reSubDotAux o t none cs
    else reSubDotAux o t (some (c :: buf)) cs

/-- `re.sub(r'o.*?t', '', ·)` on a character list (used by
`remove_brackets_content` for the four bracket kinds). -/
def reSubDotL (o t : Char) (l : List Char) : List Char :=
  reSubDotAux o t none l

/-- `re.sub(r'--+', '', ·)` as a single left-to-right scan.
State `(pend, inRun)`: `pend` records a single `-` not yet emitted,
`inRun` records that a run of two or more `-` is being deleted. -/
def dashAux : Bool → Bool → List Char → List Char
  | pend, _, [] => if pend then ['-'] else []
  | false, false, c :: cs =>
    if c = '-' then dashAux true false cs else c :: dashAux false false cs
  | true, false, c :: cs =>
    if c = '-' then dashAux false true cs else '-' :: c :: dashAux false false cs
  | _, true, c :: cs =>
    if c = '-' then dashAux false true cs else c :: dashAux false false cs

/-- `re.sub(r'--+', '', ·)` on a character list: every run of two or more
`-` characters is deleted, single `-` characters are kept. -/
def dashRemoveL (l : List Char) : List Char := dashAux false false l

/-- **C7.** `remove_extra_whitespace` collapses every maximal whitespace run
(space, tab, newline and other Unicode whitespace) to a single ASCII space
and trims the ends, and it is idempotent: applying it twice equals applying
it once. -/
theorem remove_extra_whitespace_idem (s : String) :
    remove_extra_whitespace (remove_extra_whitespace s) = remove_extra_whitespace s := by
  unfold remove_extra_whitespace
  show String.mk (stripL (collapseL (stripL (collapseL s.data)))) = _
  rw [stripL_collapseL_fix]
/-- The `default` entry of `PUNCTUATION_PATTERNS`: the character class of the 32 ASCII punctuation characters. -/
def defaultPunct : List Char :=
  ['!', '"', '#', '$', '%', '&', '\'', '(', ')', '*', '+', ',', '-', '.', 
   '/', ':', ';', '<', '=', '>', '?', '@', '[', '\\', ']', '^', '_', '`', 
   '{', '|', '}', '~']

/-- The `zh` entry of `PUNCTUATION_PATTERNS` (the duplicated quote characters of the source class are kept; duplicates are harmless in a character class). -/
def zhPunct : List Char :=
  ['!', '"', '#', '$', '%', '&', '\'', '(', ')', '*', '+', ',', '-', '.', 
   '/', ':', ';', '<', '=', '>', '?', '@', '[', '\\', ']', '^', '_', '`', 
   '{', '|', '}', '~', '。', '，', '、', '；', '：', '？', '！', '…', '—', '·', 
   'ˉ', '¨', '\'', '\'', '"', '"', '々', '～', '‖', '∶', '＂', '＇', '｀', '｜', 
   '〃', '〔', '〕', '〈', '〉', '《', '》', '「', '」', '『', '』', '．', '〖', '〗', 
   '【', '】', '（', '）', '［', '］', '｛', '｝']

/-- The `ja` entry of `PUNCTUATION_PATTERNS`. -/
def jaPunct : List Char :=
  ['!', '"', '#', '$', '%', '&', '\'', '(', ')', '*', '+', ',', '-', '.', 
   '/', ':', ';', '<', '=', '>', '?', '@', '[', '\\', ']', '^', '_', '`', 
   '{', '|', '}', '~', '。', '、', '・', '；', '：', '？', '！', '…', 'ー', '～', 
   '〜', '「', '」', '『', '』', '（', '）', '｛', '｝', '［', '］', '【', '】', '《', 
   '》', '〈', '〉', '〔', '〕']

/-- The `ko` entry of `PUNCTUATION_PATTERNS`. -/
def koPunct : List Char :=
  ['!', '"', '#', '$', '%', '&', '\'', '(', ')', '*', '+', ',', '-', '.', 
   '/', ':', ';', '<', '=', '>', '?', '@', '[', '\\', ']', '^', '_', '`', 
   '{', '|', '}', '~', '。', '、', '；', '：', '？', '！', '…', '—', '～', '·', 
   'ㆍ', '「', '」', '『', '』', '（', '）', '｛', '｝', '［', '］', '【', '】', '《', 
   '》', '〈', '〉', '〔', '〕']
/-- The `PUNCTUATION_PATTERNS` table of `text_tools.py` as a keyed lookup;
`none` models a missing key (Python `dict.get`). -/
def PUNCTUATION_PATTERNS (key : String) : Option (List Char) :=
  if key = "default" then some defaultPunct
  else if key = "zh" then some zhPunct
  else if key = "ja" then some jaPunct
  else if key = "ko" then some koPunct
  else none

/-- Python `str.lower` on a character.  Modelled on the ASCII range, which
covers every key of the profile table and the language tags compared
against them. -/
def pyLowerChar (c : Char) : Char := c.toLower

/-- `language_code.split('_')[0].lower()` from `remove_punctuation`:
the text before the first `'_'` (the whole string when there is none),
case-folded.  Note the source splits on `'_'` only. -/
def langKey (language_code : String) : String :=
  String.mk ((language_code.data.takeWhile (fun c => c != '_')).map pyLowerChar)

/-- `remove_punctuation` from `text_tools.py`: resolve the profile by
`langKey` with fallback to `default`, then delete every character of the
resolved class (`re.sub(pattern, '', text)` for a character class). -/
def remove_punctuation (text : String) (language_code : String) : String :=
  let pattern := (PUNCTUATION_PATTERNS (langKey language_code)).getD defaultPunct
  String.mk (text.data.filter (fun c => !pattern.contains c))

/-- Unicode decimal digit (category Nd), the test of Python
`str.isdecimal` per character.  Modelled on the ASCII, Arabic-Indic and
Devanagari decimal ranges. -/
def pyIsDecimalChar (c : Char) : Bool :=
  ('0' ≤ c && c ≤ '9') || (0x660 ≤ c.toNat && c.toNat ≤ 0x669) ||
  (0x966 ≤ c.toNat && c.toNat ≤ 0x96F)

/-- The per-character test of Python `str.isdigit`: characters of
Numeric_Type Decimal or Digit.  This is strictly wider than
`pyIsDecimalChar`: it also accepts digit forms such as the superscript
and subscript digits, which `str.isdecimal` rejects. -/
def pyIsDigitChar (c : Char) : Bool :=
  pyIsDecimalChar c || c.toNat == 0xB2 || c.toNat == 0xB3 || c.toNat == 0xB9 ||
  c.toNat == 0x2070 || (0x2074 ≤ c.toNat && c.toNat ≤ 0x2079) ||
  (0x2080 ≤ c.toNat && c.toNat ≤ 0x2089)

/-- `remove_digit_only_words` from `text_tools.py`: strip the ASCII space
characters (`text.replace(' ', '')`), return `false` (drop) when the rest
is non-empty and `str.isdigit`, else `true` (keep). -/
def remove_digit_only_words (text : String) : Bool :=
  let text_no_space := text.data.filter (fun c => c != ' ')
  if !text_no_space.isEmpty && text_no_space.all pyIsDigitChar then false
  else true

/-- `remove_brackets_content` from `text_tools.py`: four `.*?` bracket
substitutions applied in order: square, angle, curly, round. -/
def remove_brackets_content (text : String) : String :=
  String.mk (reSubDotL '(' ')' (reSubDotL '{' '}'
    (reSubDotL '<' '>' (reSubDotL '[' ']' text.data))))

/-- Python `str.isspace()`: non-empty and all whitespace. -/
def pyStrIsSpace (s : String) : Bool := !s.data.isEmpty && s.data.all pyIsSpace

/-- Python `str.lower()` on a string (ASCII model, see `pyLowerChar`). -/
def pyLowerString (s : String) : String := String.mk (s.data.map pyLowerChar)

/-- `text_normalize` from `text_tools.py`.  `nfc` abstracts
`unicodedata.normalize('NFC', ·)`, an opaque library call; every theorem
below holds for an arbitrary `nfc`.  `none` input models a Python `None`
or non-`str` value, `none` output the drop signal. -/
def text_normalize (nfc : String → String) (text : Option String)
    (language_code : String)
    (lower_case remove_numbers remove_brackets : Bool) : Option String :=
  match text with
  | none => none
  | some t =>
    if t = "" then none
    else
      let t1 := nfc t
      let t2 := if remove_brackets then remove_brackets_content t1 else t1
      let t3 := remove_punctuation t2 language_code
      let t4 := if lower_case then pyLowerString t3 else t3
      let t5 := remove_extra_whitespace t4
      if remove_numbers && !remove_digit_only_words t5 then none
      else if t5 = "" || pyStrIsSpace t5 then none
      else some t5

/-- `batch_normalize_text` from `text_tools.py`, modelled on the two
columns it reads: the text column and the optional language column
(`none` when the batch has no language column, in which case every record
defaults to `"en"`).  Returns the replacement text column:
`normalized if normalized else ""` maps the drop signal to the
empty-string sentinel in place. -/
def batch_normalize_text (nfc : String → String) (texts : List (Option String))
    (languages : Option (List String))
    (lower_case remove_numbers remove_brackets : Bool) : List String :=
  let langs := match languages with
    | some ls => ls
    | none => List.replicate texts.length "en"
  (texts.zip langs).map fun p =>
    (text_normalize nfc p.1 p.2 lower_case remove_numbers remove_brackets).getD ""

/-- `clean_vaani_transcript` from `vaani_text_cleaner.py`: empty for
empty or non-text input, else remove `\{[^}]*\}` matches, remove
`<[^>]*>` matches, delete `--+` runs, collapse whitespace and strip. -/
def clean_vaani_transcript (text : Option String) : String :=
  match text with
  | none => ""
  | some t =>
    if t = "" then ""
    else
      let t1 := reSubClassL '{' '}' t.data
      let t2 := reSubClassL '<' '>' t1
      let t3 := dashRemoveL t2
      String.mk (stripL (collapseL t3))

/-- The `devanagari_punct` character set of `normalize_vaani_transcript`. -/
def devanagariPunct : List Char :=
  ['।', '॥', '?', '!', ',', ';', ':', '.', '\'', '"']

/-- `normalize_vaani_transcript` from `vaani_text_cleaner.py`: clean,
return `""` when the cleaned text is empty, optionally delete the
Devanagari punctuation characters, and whitespace-normalize again. -/
def normalize_vaani_transcript (text : Option String)
    ( remove_punctuation : Bool) : String :=
  let t := clean_vaani_transcript text
  if t = "" then ""
  else
    let t2 :=
      if remove_punctuation then
        String.mk (t.data.filter (fun c => !devanagariPunct.contains c))
      else t
    String.mk (stripL (collapseL t2.data))

/-- `batch_clean_vaani_transcripts` from `vaani_text_cleaner.py`:
per-record `normalize_vaani_transcript` with the punctuation flag off,
`cleaned if cleaned else ""` written out as in the source. -/
def batch_clean_vaani_transcripts (texts : List (Option String)) : List String :=
  texts.map fun t =>
    let cleaned := normalize_vaani_transcript t false
    if cleaned = "" then "" else cleaned

/-- The full ASCII punctuation set named by the specification (claim C9):
Python's `string.punctuation`. -/
def asciiPunct : List Char :=
  ['!', '"', '#', '$', '%', '&', '\'', '(', ')', '*', '+', ',', '-', '.',
   '/', ':', ';', '<', '=', '>', '?', '@', '[', '\\', ']', '^', '_', '`',
   '{', '|', '}', '~']

/-- Modelled from the spec's words for claim C1 (not from the source):
profile resolution that takes the primary subtag as the text before the
first `-` or `_` separator, case-folded, with fallback to `default`. -/
def remove_punctuation_specC1 (text : String) (language_code : String) : String :=
  let key := String.mk
    ((language_code.data.takeWhile (fun c => c != '-' && c != '_')).map pyLowerChar)
  let pattern := (PUNCTUATION_PATTERNS key).getD defaultPunct
  String.mk (text.data.filter (fun c => !pattern.contains c))

/-! ### Invariants of the bracket and dash scans -/

/-- No occurrence of `o` anywhere before an occurrence of `t`: the
condition under which `re.sub(r'o[^t]*t', '', ·)` finds no match. -/
def NoPair (o t : Char) (l : List Char) : Prop :=
  List.Pairwise (fun a b => ¬(a = o ∧ b = t)) l

/-- No two adjacent `-` characters: the condition under which
`re.sub(r'--+', '', ·)` finds no match. -/
def NoDashRun (l : List Char) : Prop :=
  List.Chain' (fun a b => ¬(a = '-' ∧ b = '-')) l

theorem noPair_of_not_mem {o t : Char} {l : List Char} (h : t ∉ l) :
    NoPair o t l := by
  induction l with
  | nil => exact List.Pairwise.nil
  | cons c cs ih =>
    refine List.Pairwise.cons ?_ (ih (fun hm => h (List.mem_cons_of_mem c hm)))
    intro b hb hab
    exact h (hab.2 ▸ List.mem_cons_of_mem c hb)

theorem reSubClassAux_sublist (o t : Char) (l : List Char) :
    List.Sublist (reSubClassAux o t none l) l ∧
    ∀ buf, List.Sublist (reSubClassAux o t (some buf) l) (buf.reverse ++ l) := by
  induction l with
  | nil =>
    refine ⟨List.Sublist.refl _, fun buf => ?_⟩
    simp [reSubClassAux]
  | cons c cs ih =>
    constructor
    · by_cases hc : c = o
      · rw [reSubClassAux, if_pos hc]
        have := (ih.2 [c])
        simpa using this
      · rw [reSubClassAux, if_neg hc]
        exact ih.1.cons₂ c
    · intro buf
      by_cases hc : c = t
      · rw [reSubClassAux, if_pos hc]
        exact (ih.1.trans (List.sublist_cons_self c cs)).trans
          (List.sublist_append_right buf.reverse (c :: cs))
      · rw [reSubClassAux, if_neg hc]
        have := ih.2 (c :: buf)
        simpa [List.append_assoc] using this

theorem noPair_reSubClassAux {o t : Char} (hot : o ≠ t) (l : List Char) :
    NoPair o t (reSubClassAux o t none l) ∧
    ∀ buf, t ∉ buf → NoPair o t (reSubClassAux o t (some buf) l) := by
  induction l with
  | nil =>
    refine ⟨List.Pairwise.nil, fun buf hbuf => ?_⟩
    show NoPair o t buf.reverse
    exact noPair_of_not_mem (by simpa using hbuf)
  | cons c cs ih =>
    constructor
    · by_cases hc : c = o
      · rw [reSubClassAux, if_pos hc]
        refine ih.2 [c] ?_
        intro hm
        rw [List.mem_singleton] at hm
        exact hot ((hm.trans hc).symm)
      · rw [reSubClassAux, if_neg hc]
        refine List.Pairwise.cons ?_ ih.1
        intro b _ hab
        exact hc hab.1
    · intro buf hbuf
      by_cases hc : c = t
      · rw [reSubClassAux, if_pos hc]
        exact ih.1
      · rw [reSubClassAux, if_neg hc]
        refine ih.2 (c :: buf) ?_
        intro hm
        rcases List.mem_cons.mp hm with h | h
        · exact hc h.symm
        · exact hbuf h

theorem reSubClassAux_some_of_not_mem {o t : Char} {l : List Char} (h : t ∉ l) :
    ∀ buf, reSubClassAux o t (some buf) l = buf.reverse ++ l := by
  induction l with
  | nil => intro buf; simp [reSubClassAux]
  | cons c cs ih =>
    intro buf
    have hc : c ≠ t := fun hct => h (hct ▸ List.mem_cons_self c cs)
    have hct : t ≠ c := fun hh => hc hh.symm
    rw [reSubClassAux, if_neg hc, ih (fun hm => h (List.mem_cons_of_mem c hm))]
    simp

theorem reSubClassL_of_noPair {o t : Char} {l : List Char} (h : NoPair o t l) :
    reSubClassL o t l = l := by
  unfold reSubClassL
  induction l with
  | nil => rfl
  | cons c cs ih =>
    rcases List.pairwise_cons.mp h with ⟨hhead, htail⟩
    by_cases hc : c = o
    · have hnt : t ∉ cs := by
        intro hm
        exact hhead t hm ⟨hc, rfl⟩
      rw [reSubClassAux, if_pos hc, reSubClassAux_some_of_not_mem hnt]
      simp
    · rw [reSubClassAux, if_neg hc, ih htail]

theorem reSubClassAux_skip {o t : Char} {b : List Char} (hb : t ∉ b)
    (rest : List Char) :
    ∀ buf, reSubClassAux o t (some buf) (b ++ t :: rest) =
      reSubClassAux o t none rest := by
  induction b with
  | nil => intro buf; rw [List.nil_append, reSubClassAux, if_pos rfl]
  | cons x b' ih =>
    intro buf
    have hx : x ≠ t := fun h => hb (h ▸ List.mem_cons_self x b')
    rw [List.cons_append, reSubClassAux, if_neg hx]
    exact ih (fun hm => hb (List.mem_cons_of_mem x hm)) (x :: buf)

theorem reSubClassL_append (o t : Char) (b c : List Char) (hb : t ∉ b) :
    ∀ a, o ∉ a →
      reSubClassL o t (a ++ o :: b ++ t :: c) = a ++ reSubClassL o t c := by
  intro a
  unfold reSubClassL
  induction a with
  | nil =>
    intro _
    simp only [List.nil_append, List.cons_append]
    rw [reSubClassAux, if_pos rfl, reSubClassAux_skip hb c]
  | cons x a' ih =>
    intro ha
    have hx : x ≠ o := fun hxo => ha (hxo ▸ List.mem_cons_self x a')
    simp only [List.cons_append] at ih ⊢
    rw [reSubClassAux, if_neg hx, ih (fun hm => ha (List.mem_cons_of_mem x hm))]

theorem reSubDotAux_skip {o t : Char} {b : List Char} (hb : t ∉ b)
    (hn : '\n' ∉ b) (rest : List Char) :
    ∀ buf, reSubDotAux o t (some buf) (b ++ t :: rest) =
      reSubDotAux o t none rest := by
  induction b with
  | nil => intro buf; rw [List.nil_append, reSubDotAux, if_pos rfl]
  | cons x b' ih =>
    intro buf
    have hx : x ≠ t := fun h => hb (h ▸ List.mem_cons_self x b')
    have hxn : x ≠ '\n' := fun h => hn (h ▸ List.mem_cons_self x b')
    rw [List.cons_append, reSubDotAux, if_neg hx, if_neg hxn]
    exact ih (fun hm => hb (List.mem_cons_of_mem x hm))
      (fun hm => hn (List.mem_cons_of_mem x hm)) (x :: buf)

theorem reSubDotL_append (o t : Char) (b c : List Char) (hb : t ∉ b)
    (hn : '\n' ∉ b) :
    ∀ a, o ∉ a →
      reSubDotL o t (a ++ o :: b ++ t :: c) = a ++ reSubDotL o t c := by
  intro a
  unfold reSubDotL
  induction a with
  | nil =>
    intro _
    simp only [List.nil_append, List.cons_append]
    rw [reSubDotAux, if_pos rfl, reSubDotAux_skip hb hn c]
  | cons x a' ih =>
    intro ha
    have hx : x ≠ o := fun hxo => ha (hxo ▸ List.mem_cons_self x a')
    simp only [List.cons_append] at ih ⊢
    rw [reSubDotAux, if_neg hx, ih (fun hm => ha (List.mem_cons_of_mem x hm))]

theorem noDashRun_dashAux (l : List Char) :
    NoDashRun (dashAux false false l) ∧ NoDashRun (dashAux true false l) ∧
    NoDashRun (dashAux false true l) := by
  induction l with
  | nil =>
    refine ⟨?_, ?_, ?_⟩ <;> simp [dashAux, NoDashRun]
  | cons c cs ih =>
    obtain ⟨ihff, ihtf, ihft⟩ := ih
    by_cases hc : c = '-'
    · rw [hc]
      refine ⟨?_, ?_, ?_⟩
      · rw [dashAux.eq_2, if_pos rfl]; exact ihtf
      · rw [dashAux.eq_3, if_pos rfl]; exact ihft
      · rw [dashAux.eq_4, if_pos rfl]; exact ihft
    · refine ⟨?_, ?_, ?_⟩
      · rw [dashAux.eq_2, if_neg hc]
        exact List.chain'_cons'.mpr ⟨fun y _ hab => hc hab.1, ihff⟩
      · rw [dashAux.eq_3, if_neg hc]
        refine List.chain'_cons'.mpr ⟨?_, List.chain'_cons'.mpr ⟨fun y _ hab => hc hab.1, ihff⟩⟩
        intro y hy hab
        simp only [List.head?_cons, Option.mem_def, Option.some.injEq] at hy
        subst hy
        exact hc hab.2
      · rw [dashAux.eq_4, if_neg hc]
        exact List.chain'_cons'.mpr ⟨fun y _ hab => hc hab.1, ihff⟩

theorem dashAux_of_noDashRun (l : List Char) :
    (NoDashRun l → dashAux false false l = l) ∧
    (NoDashRun l → l.head? ≠ some '-' → dashAux true false l = '-' :: l) := by
  induction l with
  | nil => exact ⟨fun _ => rfl, fun _ _ => by simp [dashAux]⟩
  | cons c cs ih =>
    constructor
    · intro h
      have htail : NoDashRun cs := (List.chain'_cons'.mp h).2
      by_cases hc : c = '-'
      · subst hc
        have hhead : cs.head? ≠ some '-' := by
          intro hh
          rcases List.head?_eq_some_iff.mp hh with ⟨ds, hds⟩
          rw [hds] at h
          exact (List.chain'_cons.mp h).1 ⟨rfl, rfl⟩
        rw [dashAux.eq_2, if_pos rfl]
        exact ih.2 htail hhead
      · rw [dashAux.eq_2, if_neg hc, ih.1 htail]
    · intro h hc'
      have hc : c ≠ '-' := by
        intro hcc
        exact hc' (by rw [hcc]; rfl)
      rw [dashAux.eq_3, if_neg hc, ih.1 (List.chain'_cons'.mp h).2]

theorem dashAux_ft_replicate (c : List Char) (hc : c.head? ≠ some '-') :
    ∀ m, dashAux false true (List.replicate m '-' ++ c) = dashAux false false c := by
  intro m
  induction m with
  | zero =>
    rw [List.replicate_zero, List.nil_append]
    match c, hc with
    | [], _ => rfl
    | d :: ds, hc =>
      have hd : d ≠ '-' := fun h => hc (by rw [h]; rfl)
      rw [dashAux.eq_4, if_neg hd, dashAux.eq_2, if_neg hd]
  | succ m ih =>
    rw [List.replicate_succ, List.cons_append, dashAux.eq_4, if_pos rfl]
    exact ih

theorem dashRemoveL_append (c : List Char) (n : Nat) (hn : 2 ≤ n)
    (hc : c.head? ≠ some '-') :
    ∀ a, '-' ∉ a →
      dashRemoveL (a ++ List.replicate n '-' ++ c) = a ++ dashRemoveL c := by
  intro a
  unfold dashRemoveL
  induction a with
  | nil =>
    intro _
    obtain ⟨m, rfl⟩ : ∃ m, n = m + 2 := ⟨n - 2, by omega⟩
    simp only [List.nil_append]
    rw [List.replicate_succ, List.replicate_succ, List.cons_append,
      List.cons_append, dashAux.eq_2, if_pos rfl, dashAux.eq_3, if_pos rfl,
      dashAux_ft_replicate c hc m]
  | cons x a' ih =>
    intro ha
    have hx : x ≠ '-' := fun h => ha (h ▸ List.mem_cons_self x a')
    simp only [List.cons_append] at ih ⊢
    rw [dashAux.eq_2, if_neg hx, ih (fun hm => ha (List.mem_cons_of_mem x hm))]

theorem dashAux_sublist (l : List Char) :
    List.Sublist (dashAux false false l) l ∧
    List.Sublist (dashAux true false l) ('-' :: l) ∧
    List.Sublist (dashAux false true l) l := by
  induction l with
  | nil =>
    refine ⟨?_, ?_, ?_⟩ <;> simp [dashAux]
  | cons c cs ih =>
    obtain ⟨ihff, ihtf, ihft⟩ := ih
    by_cases hc : c = '-'
    · subst hc
      refine ⟨?_, ?_, ?_⟩
      · rw [dashAux.eq_2, if_pos rfl]
        exact ihtf
      · rw [dashAux.eq_3, if_pos rfl]
        exact (ihft.trans (List.sublist_cons_self _ _)).trans
          (List.sublist_cons_self _ _)
      · rw [dashAux.eq_4, if_pos rfl]
        exact ihft.trans (List.sublist_cons_self _ _)
    · refine ⟨?_, ?_, ?_⟩
      · rw [dashAux.eq_2, if_neg hc]
        exact ihff.cons₂ c
      · rw [dashAux.eq_3, if_neg hc]
        exact (ihff.cons₂ c).cons₂ '-'
      · rw [dashAux.eq_4, if_neg hc]
        exact ihff.cons₂ c

theorem rstripL_sublist (l : List Char) : List.Sublist (rstripL l) l := by
  induction l with
  | nil => exact List.Sublist.refl _
  | cons c cs ih =>
    rw [rstripL]
    by_cases he : (rstripL cs).isEmpty = true
    · rw [if_pos he]
      by_cases hc : pyIsSpace c = true
      · rw [if_pos hc]; exact List.nil_sublist _
      · rw [if_neg hc]; exact (List.nil_sublist cs).cons₂ c
    · rw [if_neg he]
      exact ih.cons₂ c

theorem stripL_sublist (l : List Char) : List.Sublist (stripL l) l :=
  (rstripL_sublist _).trans (List.dropWhile_sublist _)

theorem mem_collapseAux {y : Char} :
    ∀ {b : Bool} {l : List Char}, y ∈ collapseAux b l → y = ' ' ∨ y ∈ l := by
  intro b l
  induction l generalizing b with
  | nil => intro h; exact absurd h (by simp [collapseAux])
  | cons c cs ih =>
    intro h
    by_cases hc : pyIsSpace c = true
    · match b with
      | true =>
        rw [collapseAux, if_pos hc, if_pos rfl] at h
        rcases ih h with h' | h'
        · exact Or.inl h'
        · exact Or.inr (List.mem_cons_of_mem c h')
      | false =>
        rw [collapseAux, if_pos hc, if_neg (by simp)] at h
        rcases List.mem_cons.mp h with h' | h'
        · exact Or.inl h'
        · rcases ih h' with h'' | h''
          · exact Or.inl h''
          · exact Or.inr (List.mem_cons_of_mem c h'')
    · rw [collapseAux, if_neg hc] at h
      rcases List.mem_cons.mp h with h' | h'
      · exact Or.inr (h' ▸ List.mem_cons_self c cs)
      · rcases ih h' with h'' | h''
        · exact Or.inl h''
        · exact Or.inr (List.mem_cons_of_mem c h'')

theorem pairwise_collapseAux {R : Char → Char → Prop}
    (hsp1 : ∀ y, R ' ' y) (hsp2 : ∀ x, R x ' ') :
    ∀ {l : List Char}, List.Pairwise R l →
      ∀ b, List.Pairwise R (collapseAux b l) := by
  intro l
  induction l with
  | nil => intro _ b; match b with | true => exact List.Pairwise.nil | false => exact List.Pairwise.nil
  | cons c cs ih =>
    intro h b
    rcases List.pairwise_cons.mp h with ⟨hhead, htail⟩
    by_cases hc : pyIsSpace c = true
    · match b with
      | true =>
        rw [collapseAux, if_pos hc, if_pos rfl]
        exact ih htail true
      | false =>
        rw [collapseAux, if_pos hc, if_neg (by simp)]
        exact List.Pairwise.cons (fun y _ => hsp1 y) (ih htail true)
    · rw [collapseAux, if_neg hc]
      refine List.Pairwise.cons ?_ (ih htail false)
      intro y hy
      rcases mem_collapseAux hy with h' | h'
      · exact h' ▸ hsp2 c
      · exact hhead y h'

theorem chain'_collapseAux {R : Char → Char → Prop}
    (hsp1 : ∀ y, R ' ' y) (hsp2 : ∀ x, R x ' ') :
    ∀ {l : List Char}, List.Chain' R l → ∀ b, List.Chain' R (collapseAux b l) := by
  intro l
  induction l with
  | nil =>
    intro _ b
    match b with
    | true => exact List.chain'_nil
    | false => exact List.chain'_nil
  | cons c cs ih =>
    intro h b
    have htail : List.Chain' R cs := (List.chain'_cons'.mp h).2
    by_cases hc : pyIsSpace c = true
    · match b with
      | true =>
        rw [collapseAux, if_pos hc, if_pos rfl]
        exact ih htail true
      | false =>
        rw [collapseAux, if_pos hc, if_neg (by simp)]
        exact List.chain'_cons'.mpr ⟨fun y _ => hsp1 y, ih htail true⟩
    · rw [collapseAux, if_neg hc]
      refine List.chain'_cons'.mpr ⟨?_, ih htail false⟩
      intro y hy
      match cs, htail with
      | [], _ => exact absurd hy (by simp [collapseAux])
      | d :: ds, htail =>
        by_cases hd : pyIsSpace d = true
        · rw [collapseAux, if_pos hd, if_neg (by simp)] at hy
          simp only [List.head?_cons, Option.mem_def, Option.some.injEq] at hy
          subst hy
          exact hsp2 c
        · rw [collapseAux, if_neg hd] at hy
          simp only [List.head?_cons, Option.mem_def, Option.some.injEq] at hy
          subst hy
          exact (List.chain'_cons.mp h).1

theorem chain'_lstripL {R : Char → Char → Prop} {l : List Char}
    (h : List.Chain' R l) : List.Chain' R (lstripL l) := by
  induction l with
  | nil => exact List.chain'_nil
  | cons c cs ih =>
    by_cases hc : pyIsSpace c = true
    · rw [lstripL, List.dropWhile_cons, if_pos hc]
      exact ih (List.chain'_cons'.mp h).2
    · rw [lstripL, List.dropWhile_cons, if_neg hc]
      exact h

theorem chain'_rstripL {R : Char → Char → Prop} {l : List Char}
    (h : List.Chain' R l) : List.Chain' R (rstripL l) := by
  induction l with
  | nil => exact List.chain'_nil
  | cons c cs ih =>
    rw [rstripL]
    by_cases he : (rstripL cs).isEmpty = true
    · rw [if_pos he]
      by_cases hc : pyIsSpace c = true
      · rw [if_pos hc]; exact List.chain'_nil
      · rw [if_neg hc]; exact List.chain'_singleton c
    · rw [if_neg he]
      have htail : List.Chain' R cs := (List.chain'_cons'.mp h).2
      refine List.chain'_cons'.mpr ⟨?_, ih htail⟩
      intro y hy
      have hne : rstripL cs ≠ [] := by simpa [List.isEmpty_iff] using he
      match cs, htail, hne with
      | d :: ds, htail, hne =>
        obtain ⟨t, ht⟩ := rstripL_head rfl hne
        rw [ht] at hy
        simp only [List.head?_cons, Option.mem_def, Option.some.injEq] at hy
        subst hy
        exact (List.chain'_cons.mp h).1

theorem chain'_stripL {R : Char → Char → Prop} {l : List Char}
    (h : List.Chain' R l) : List.Chain' R (stripL l) :=
  chain'_rstripL (chain'_lstripL h)

/-- **C5.** `clean_vaani_transcript` applies exactly, in fixed order:
empty for empty or non-text input; removal of each substring from a `{`
to the next `}` (non-greedy, non-nested); removal of each substring from
a `<` to the next `>`; deletion of every run of two or more `-`; then
whitespace normalization.  In particular
`clean_vaani_transcript "एक वॉचमन {watchman} असा" = "एक वॉचमन असा"`. -/
theorem clean_vaani_transcript_spec :
    (∀ a b c : List Char, '{' ∉ a → '}' ∉ b →
      reSubClassL '{' '}' (a ++ '{' :: b ++ '}' :: c) =
        a ++ reSubClassL '{' '}' c) ∧
    (∀ a b c : List Char, '<' ∉ a → '>' ∉ b →
      reSubClassL '<' '>' (a ++ '<' :: b ++ '>' :: c) =
        a ++ reSubClassL '<' '>' c) ∧
    (∀ (a c : List Char) (n : Nat), '-' ∉ a → 2 ≤ n → c.head? ≠ some '-' →
      dashRemoveL (a ++ List.replicate n '-' ++ c) = a ++ dashRemoveL c) ∧
    clean_vaani_transcript none = "" ∧
    clean_vaani_transcript (some "") = "" ∧
    (∀ s : String, s ≠ "" →
      clean_vaani_transcript (some s) =
        String.mk (stripL (collapseL (dashRemoveL
          (reSubClassL '<' '>' (reSubClassL '{' '}' s.data)))))) ∧
    clean_vaani_transcript (some "एक वॉचमन {watchman} असा") = "एक वॉचमन असा" := by
  refine ⟨?_, ?_, ?_, rfl, rfl, ?_, ?_⟩
  · intro a b c ha hb
    exact reSubClassL_append '{' '}' b c hb a ha
  · intro a b c ha hb
    exact reSubClassL_append '<' '>' b c hb a ha
  · intro a c n ha hn hc
    exact dashRemoveL_append c n hn hc a ha
  · intro s hs
    simp only [clean_vaani_transcript]
    rw [if_neg hs]
  · decide

/-- A convenient closed instance of claim C5's quantified parts. -/
theorem clean_vaani_transcript_spec_witness :
    reSubClassL '{' '}' (['x'] ++ '{' :: ['w'] ++ '}' :: ['y']) =
        ['x'] ++ reSubClassL '{' '}' ['y'] ∧
    reSubClassL '<' '>' (['x'] ++ '<' :: ['w'] ++ '>' :: ['y']) =
        ['x'] ++ reSubClassL '<' '>' ['y'] ∧
    dashRemoveL (['x'] ++ List.replicate 2 '-' ++ ['y']) =
        ['x'] ++ dashRemoveL ['y'] ∧
    clean_vaani_transcript (some "ab") =
      String.mk (stripL (collapseL (dashRemoveL
        (reSubClassL '<' '>' (reSubClassL '{' '}' "ab".data))))) :=
  ⟨clean_vaani_transcript_spec.1 ['x'] ['w'] ['y'] (by decide) (by decide),
   clean_vaani_transcript_spec.2.1 ['x'] ['w'] ['y'] (by decide) (by decide),
   clean_vaani_transcript_spec.2.2.1 ['x'] ['y'] 2 (by decide) (by decide)
     (by decide),
   clean_vaani_transcript_spec.2.2.2.2.2.1 "ab" (by decide)⟩

theorem clean_vaani_eq (s : String) (hs : s ≠ "") :
    clean_vaani_transcript (some s) =
      String.mk (stripL (collapseL (dashRemoveL
        (reSubClassL '<' '>' (reSubClassL '{' '}' s.data))))) := by
  simp only [clean_vaani_transcript]
  rw [if_neg hs]

/-- **C10.** `clean_vaani_transcript` is idempotent: its output contains
no complete `{...}` pair, no complete `<...>` pair and no run of two or
more `-`, and is already whitespace-normalized, so a second application
changes nothing. -/
theorem clean_vaani_transcript_idem (s : String) :
    clean_vaani_transcript (some (clean_vaani_transcript (some s))) =
      clean_vaani_transcript (some s) := by
  by_cases hs : s = ""
  · subst hs; rfl
  · by_cases hw0 : clean_vaani_transcript (some s) = ""
    · rw [hw0]; rfl
    · have hwdef := clean_vaani_eq s hs
      have hdata : (clean_vaani_transcript (some s)).data =
          stripL (collapseL (dashRemoveL
            (reSubClassL '<' '>' (reSubClassL '{' '}' s.data)))) := by
        rw [hwdef]
      have hsp1c : ∀ y : Char, ¬(' ' = '{' ∧ y = '}') :=
        fun y h => absurd h.1 (by decide)
      have hsp2c : ∀ x : Char, ¬(x = '{' ∧ ' ' = '}') :=
        fun x h => absurd h.2 (by decide)
      have hsp1a : ∀ y : Char, ¬(' ' = '<' ∧ y = '>') :=
        fun y h => absurd h.1 (by decide)
      have hsp2a : ∀ x : Char, ¬(x = '<' ∧ ' ' = '>') :=
        fun x h => absurd h.2 (by decide)
      have hsp1d : ∀ y : Char, ¬(' ' = '-' ∧ y = '-') :=
        fun y h => absurd h.1 (by decide)
      have hsp2d : ∀ x : Char, ¬(x = '-' ∧ ' ' = '-') :=
        fun x h => absurd h.2 (by decide)
      have hc1 : NoPair '{' '}'
          (dashRemoveL (reSubClassL '<' '>' (reSubClassL '{' '}' s.data))) :=
        (((noPair_reSubClassAux (by decide) s.data).1.sublist
            (reSubClassAux_sublist '<' '>' (reSubClassL '{' '}' s.data)).1).sublist
          (dashAux_sublist (reSubClassL '<' '>' (reSubClassL '{' '}' s.data))).1)
      have hc2 : NoPair '<' '>'
          (dashRemoveL (reSubClassL '<' '>' (reSubClassL '{' '}' s.data))) :=
        ((noPair_reSubClassAux (by decide)
            (reSubClassL '{' '}' s.data)).1.sublist
          (dashAux_sublist (reSubClassL '<' '>' (reSubClassL '{' '}' s.data))).1)
      have hc3 : NoDashRun
          (dashRemoveL (reSubClassL '<' '>' (reSubClassL '{' '}' s.data))) :=
        (noDashRun_dashAux (reSubClassL '<' '>' (reSubClassL '{' '}' s.data))).1
      have hw1 : NoPair '{' '}' (clean_vaani_transcript (some s)).data := by
        rw [hdata]
        exact (pairwise_collapseAux hsp1c hsp2c hc1 false).sublist
          (stripL_sublist _)
      have hw2 : NoPair '<' '>' (clean_vaani_transcript (some s)).data := by
        rw [hdata]
        exact (pairwise_collapseAux hsp1a hsp2a hc2 false).sublist
          (stripL_sublist _)
      have hw3 : NoDashRun (clean_vaani_transcript (some s)).data := by
        rw [hdata]
        exact chain'_stripL (chain'_collapseAux hsp1d hsp2d hc3 false)
      rw [clean_vaani_eq _ hw0, reSubClassL_of_noPair hw1,
        reSubClassL_of_noPair hw2]
      have hdash : dashRemoveL (clean_vaani_transcript (some s)).data =
          (clean_vaani_transcript (some s)).data :=
        (dashAux_of_noDashRun _).1 hw3
      rw [hdash, hdata, stripL_collapseL_fix, ← hdata]

/-- **C6.** `remove_brackets_content` removes bracket-enclosed text with
shortest-match (non-greedy) semantics per bracket kind — a span runs from
an opener to the next closer of the same kind (`.` never crossing a
newline) — applied independently in the fixed order square, angle, curly,
round; in particular `remove_brackets_content "a [b] c [d] e" = "a  c  e"`,
each `[...]` span removed independently. -/
theorem remove_brackets_content_spec :
    (∀ a b c : List Char, '[' ∉ a → ']' ∉ b → '\n' ∉ b →
      reSubDotL '[' ']' (a ++ '[' :: b ++ ']' :: c) =
        a ++ reSubDotL '[' ']' c) ∧
    (∀ a b c : List Char, '<' ∉ a → '>' ∉ b → '\n' ∉ b →
      reSubDotL '<' '>' (a ++ '<' :: b ++ '>' :: c) =
        a ++ reSubDotL '<' '>' c) ∧
    (∀ a b c : List Char, '{' ∉ a → '}' ∉ b → '\n' ∉ b →
      reSubDotL '{' '}' (a ++ '{' :: b ++ '}' :: c) =
        a ++ reSubDotL '{' '}' c) ∧
    (∀ a b c : List Char, '(' ∉ a → ')' ∉ b → '\n' ∉ b →
      reSubDotL '(' ')' (a ++ '(' :: b ++ ')' :: c) =
        a ++ reSubDotL '(' ')' c) ∧
    (∀ s : String, remove_brackets_content s =
      String.mk (reSubDotL '(' ')' (reSubDotL '{' '}'
        (reSubDotL '<' '>' (reSubDotL '[' ']' s.data))))) ∧
    remove_brackets_content "a [b] c [d] e" = "a  c  e" := by
  refine ⟨?_, ?_, ?_, ?_, fun s => rfl, by decide⟩
  · intro a b c ha hb hn
    exact reSubDotL_append '[' ']' b c hb hn a ha
  · intro a b c ha hb hn
    exact reSubDotL_append '<' '>' b c hb hn a ha
  · intro a b c ha hb hn
    exact reSubDotL_append '{' '}' b c hb hn a ha
  · intro a b c ha hb hn
    exact reSubDotL_append '(' ')' b c hb hn a ha

/-- A closed instance of claim C6's quantified parts. -/
theorem remove_brackets_content_spec_witness :
    reSubDotL '[' ']' (['a'] ++ '[' :: ['b'] ++ ']' :: ['c']) =
        ['a'] ++ reSubDotL '[' ']' ['c'] ∧
    reSubDotL '<' '>' (['a'] ++ '<' :: ['b'] ++ '>' :: ['c']) =
        ['a'] ++ reSubDotL '<' '>' ['c'] ∧
    reSubDotL '{' '}' (['a'] ++ '{' :: ['b'] ++ '}' :: ['c']) =
        ['a'] ++ reSubDotL '{' '}' ['c'] ∧
    reSubDotL '(' ')' (['a'] ++ '(' :: ['b'] ++ ')' :: ['c']) =
        ['a'] ++ reSubDotL '(' ')' ['c'] :=
  ⟨remove_brackets_content_spec.1 ['a'] ['b'] ['c']
      (by decide) (by decide) (by decide),
   remove_brackets_content_spec.2.1 ['a'] ['b'] ['c']
      (by decide) (by decide) (by decide),
   remove_brackets_content_spec.2.2.1 ['a'] ['b'] ['c']
      (by decide) (by decide) (by decide),
   remove_brackets_content_spec.2.2.2.1 ['a'] ['b'] ['c']
      (by decide) (by decide) (by decide)⟩

/-- **C8.** For a language tag whose resolved key is not in the profile
table, `remove_punctuation` never fails and silently uses the `default`
profile; in particular `remove_punctuation "a,b!" "xx" = "ab"`. -/
theorem remove_punctuation_fallback :
    (∀ text lang : String, PUNCTUATION_PATTERNS (langKey lang) = none →
      remove_punctuation text lang =
        String.mk (text.data.filter (fun c => !defaultPunct.contains c))) ∧
    remove_punctuation "a,b!" "xx" = "ab" := by
  refine ⟨?_, by decide⟩
  intro text lang h
  unfold remove_punctuation
  rw [h]
  rfl

/-- A closed instance of claim C8's quantified part at the tag `"xx"`. -/
theorem remove_punctuation_fallback_witness :
    remove_punctuation "a,b!" "xx" =
      String.mk ("a,b!".data.filter (fun c => !defaultPunct.contains c)) :=
  remove_punctuation_fallback.1 "a,b!" "xx" (by decide)

theorem PUNCTUATION_PATTERNS_ascii_aux :
    ∀ key pat, PUNCTUATION_PATTERNS key = some pat →
      ∀ c ∈ asciiPunct, c ∈ pat := by
  intro key pat h
  unfold PUNCTUATION_PATTERNS at h
  split_ifs at h
  all_goals injection h with h
  all_goals subst h
  all_goals decide

/-- **C9.** Every punctuation profile of the table contains the full
ASCII punctuation set, so `remove_punctuation` deletes every ASCII
punctuation character whatever the language tag resolves to. -/
theorem remove_punctuation_ascii :
    (∀ key pat, PUNCTUATION_PATTERNS key = some pat →
      ∀ c ∈ asciiPunct, c ∈ pat) ∧
    ∀ (text lang : String) (c : Char), c ∈ asciiPunct →
      c ∉ (remove_punctuation text lang).data := by
  refine ⟨PUNCTUATION_PATTERNS_ascii_aux, ?_⟩
  intro text lang c hc hmem
  have hm2 : c ∈ text.data.filter
      (fun x =>
        !((PUNCTUATION_PATTERNS (langKey lang)).getD defaultPunct).contains x) :=
    hmem
  rcases List.mem_filter.mp hm2 with ⟨-, hfilt⟩
  have hin : c ∈ (PUNCTUATION_PATTERNS (langKey lang)).getD defaultPunct := by
    cases hp : PUNCTUATION_PATTERNS (langKey lang) with
    | none =>
      rw [Option.getD_none]
      have hd : ∀ x ∈ asciiPunct, x ∈ defaultPunct := by decide
      exact hd c hc
    | some pat =>
      rw [Option.getD_some]
      exact PUNCTUATION_PATTERNS_ascii_aux _ pat hp c hc
  rw [Bool.not_eq_true'] at hfilt
  have hcont : ((PUNCTUATION_PATTERNS (langKey lang)).getD
      defaultPunct).contains c = true := List.elem_iff.mpr hin
  rw [hcont] at hfilt
  exact Bool.noConfusion hfilt

/-- A closed instance of claim C9 at the comma character. -/
theorem remove_punctuation_ascii_witness :
    ',' ∉ (remove_punctuation "x,y" "en").data :=
  remove_punctuation_ascii.2 "x,y" "en" ',' (by decide)

/-- Counterexample to claim C1 as stated: the code resolves the profile
key by splitting on `'_'` only, so `"zh-CN"` does not resolve to the `zh`
profile (the spec-modelled resolver with `-`/`_` splitting disagrees with
the source on this input). -/
theorem remove_punctuation_langtag_cex :
    remove_punctuation "a。" "zh-CN" = "a。" ∧
    remove_punctuation_specC1 "a。" "zh-CN" = "a" := by
  constructor
  · decide
  · decide

/-- **C1 (amended).** Profile resolution takes the text before the first
`'_'` separator only (not `'-'`), case-folded, with fallback to
`default`: `"zh_CN"` and `"ZH"` resolve to the `zh` profile while
`"zh-CN"` falls back to `default`. -/
theorem remove_punctuation_langtag_amended :
    (∀ text l1 l2 : String, langKey l1 = langKey l2 →
      remove_punctuation text l1 = remove_punctuation text l2) ∧
    (∀ text lang : String,
      remove_punctuation text lang = String.mk (text.data.filter
        (fun c =>
          !((PUNCTUATION_PATTERNS (langKey lang)).getD
              defaultPunct).contains c))) ∧
    remove_punctuation "a。" "zh_CN" = "a" ∧
    remove_punctuation "a。" "ZH" = "a" ∧
    remove_punctuation "a。" "zh-CN" = "a。" := by
  refine ⟨?_, fun text lang => rfl, by decide, by decide, by decide⟩
  intro text l1 l2 h
  unfold remove_punctuation
  rw [h]

/-- A closed instance of claim C1's amended resolution equivalence. -/
theorem remove_punctuation_langtag_amended_witness :
    remove_punctuation "a,b" "zh_CN" = remove_punctuation "a,b" "zh_TW" :=
  remove_punctuation_langtag_amended.1 "a,b" "zh_CN" "zh_TW" (by decide)

/-- Counterexample to claim C2 as stated: the superscript two is not a
decimal digit character, yet the code drops it, because Python
`str.isdigit` also accepts non-decimal digit forms. -/
theorem remove_digit_only_words_cex :
    remove_digit_only_words "²" = false ∧
    ¬("²".data.filter (fun c => c != ' ') ≠ [] ∧
      ∀ c ∈ "²".data.filter (fun c => c != ' '), pyIsDecimalChar c = true) := by
  decide

/-- **C2 (amended).** `remove_digit_only_words` strips the space
characters and returns the drop decision exactly when the stripped string
is non-empty and consists entirely of digit characters in the sense of
Python `str.isdigit` (decimal digits and other digit forms such as
superscripts); `"123"` and `"12 3"` are dropped, `"12a"` and `""` kept. -/
theorem remove_digit_only_words_spec :
    (∀ s : String, remove_digit_only_words s = false ↔
      (s.data.filter (fun c => c != ' ') ≠ [] ∧
       ∀ c ∈ s.data.filter (fun c => c != ' '), pyIsDigitChar c = true)) ∧
    remove_digit_only_words "123" = false ∧
    remove_digit_only_words "12 3" = false ∧
    remove_digit_only_words "12a" = true ∧
    remove_digit_only_words "" = true := by
  refine ⟨?_, by decide, by decide, by decide, by decide⟩
  intro s
  simp only [remove_digit_only_words]
  split_ifs with h
  · rw [Bool.and_eq_true] at h
    constructor
    · intro _
      refine ⟨?_, List.all_eq_true.mp h.2⟩
      intro hnil
      rw [hnil] at h
      exact Bool.noConfusion h.1
    · intro _
      rfl
  · constructor
    · intro hf
      exact hf.elim
    · rintro ⟨hne, hall⟩
      exfalso
      apply h
      rw [Bool.and_eq_true]
      refine ⟨?_, List.all_eq_true.mpr hall⟩
      rw [Bool.not_eq_true']
      exact Bool.eq_false_iff.mpr (fun hT => hne (List.isEmpty_iff.mp hT))

/-- A closed instance of claim C2's amended characterization at `"123"`. -/
theorem remove_digit_only_words_spec_witness :
    "123".data.filter (fun c => c != ' ') ≠ [] ∧
      ∀ c ∈ "123".data.filter (fun c => c != ' '), pyIsDigitChar c = true :=
  (remove_digit_only_words_spec.1 "123").mp (by decide)

theorem text_normalize_some_shape {X s : String} {b : Bool}
    (h : (if b then none
          else if X = "" || pyStrIsSpace X then none else some X) = some s) :
    s ≠ "" ∧ pyStrIsSpace s = false := by
  by_cases h1 : b = true
  · rw [if_pos h1] at h
    exact Option.noConfusion h
  · rw [if_neg h1] at h
    by_cases h2 : (X = "" || pyStrIsSpace X) = true
    · rw [if_pos h2] at h
      exact Option.noConfusion h
    · rw [if_neg h2] at h
      injection h with heq
      rw [Bool.or_eq_true, not_or] at h2
      rw [← heq]
      exact ⟨fun h0 => h2.1 (decide_eq_true h0), Bool.eq_false_iff.mpr h2.2⟩

/-- **C4.** For every language tag and configuration (and any behaviour
of the opaque NFC normalizer), `text_normalize` returns the drop signal
`none` on empty or non-text input, and any string it returns is non-empty
and not all-whitespace; the drop signal is the only failure result. -/
theorem text_normalize_drop_invariant :
    ∀ (nfc : String → String) (lang : String) (lc rn rb : Bool),
      text_normalize nfc none lang lc rn rb = none ∧
      text_normalize nfc (some "") lang lc rn rb = none ∧
      ∀ t s, text_normalize nfc (some t) lang lc rn rb = some s →
        s ≠ "" ∧ pyStrIsSpace s = false := by
  intro nfc lang lc rn rb
  refine ⟨rfl, rfl, ?_⟩
  intro t s h
  simp only [text_normalize] at h
  by_cases ht : t = ""
  · rw [if_pos ht] at h
    exact Option.noConfusion h
  · rw [if_neg ht] at h
    exact text_normalize_some_shape h

/-- A closed instance of claim C4 at a concrete input. -/
theorem text_normalize_drop_invariant_witness :
    "hello" ≠ "" ∧ pyStrIsSpace "hello" = false :=
  (text_normalize_drop_invariant id "en" true false false).2.2
    "Hello" "hello" (by decide)

/-- **C3.** For equal-length batch columns, both batch adapters return a
text column of the same length in the same order, every dropped record
replaced in place by the empty-string sentinel. -/
theorem batch_adapters_size_invariant :
    (∀ (nfc : String → String) (lc rn rb : Bool)
        (texts : List (Option String)) (ls : List String),
      ls.length = texts.length →
      (batch_normalize_text nfc texts (some ls) lc rn rb).length =
          texts.length ∧
      ∀ (i : Nat), i < texts.length → i < ls.length →
        ∀ (h1 : i < texts.length) (h2 : i < ls.length),
        (batch_normalize_text nfc texts (some ls) lc rn rb)[i]? =
          some ((text_normalize nfc texts[i] ls[i] lc rn rb).getD "")) ∧
    (∀ (nfc : String → String) (lc rn rb : Bool)
        (texts : List (Option String)),
      (batch_normalize_text nfc texts none lc rn rb).length = texts.length ∧
      ∀ (i : Nat) (h1 : i < texts.length),
        (batch_normalize_text nfc texts none lc rn rb)[i]? =
          some ((text_normalize nfc texts[i] "en" lc rn rb).getD "")) ∧
    (∀ texts : List (Option String),
      (batch_clean_vaani_transcripts texts).length = texts.length ∧
      ∀ (i : Nat) (h : i < texts.length),
        (batch_clean_vaani_transcripts texts)[i]? =
          some (if normalize_vaani_transcript texts[i] false = "" then ""
                else normalize_vaani_transcript texts[i] false)) := by
  refine ⟨?_, ?_, ?_⟩
  · intro nfc lc rn rb texts ls hlen
    constructor
    · simp only [batch_normalize_text]
      rw [List.length_map, List.length_zip, hlen, Nat.min_self]
    · intro i _ _ h1 h2
      simp only [batch_normalize_text]
      have hz : (texts.zip ls)[i]? = some (texts[i], ls[i]) := by
        rw [List.getElem?_zip_eq_some]
        exact ⟨List.getElem?_eq_getElem h1, List.getElem?_eq_getElem h2⟩
      rw [List.getElem?_map, hz]
      rfl
  · intro nfc lc rn rb texts
    constructor
    · simp only [batch_normalize_text]
      rw [List.length_map, List.length_zip, List.length_replicate,
        Nat.min_self]
    · intro i h1
      simp only [batch_normalize_text]
      have hz : (texts.zip (List.replicate texts.length "en"))[i]? =
          some (texts[i], "en") := by
        rw [List.getElem?_zip_eq_some]
        refine ⟨List.getElem?_eq_getElem h1, ?_⟩
        rw [List.getElem?_eq_getElem (by simpa using h1)]
        simp
      rw [List.getElem?_map, hz]
      rfl
  · intro texts
    constructor
    · simp only [batch_clean_vaani_transcripts]
      rw [List.length_map]
    · intro i h
      simp only [batch_clean_vaani_transcripts]
      rw [List.getElem?_map, List.getElem?_eq_getElem h]
      rfl

/-- A closed instance of claim C3 for two-element batches. -/
theorem batch_adapters_size_invariant_witness :
    (batch_normalize_text id [some "a", none] (some ["en", "en"])
        true false false).length = 2 ∧
    (batch_clean_vaani_transcripts [some "x {y}", none])[0]? =
      some (if normalize_vaani_transcript (some "x {y}") false = "" then ""
            else normalize_vaani_transcript (some "x {y}") false) :=
  ⟨(batch_adapters_size_invariant.1 id true false false [some "a", none]
      ["en", "en"] (by decide)).1,
   (batch_adapters_size_invariant.2.2 [some "x {y}", none]).2 0 (by decide)⟩
